import Mathlib

/-!
Verification of the `noargs` command-line token consumption engine.

The four extraction algorithms are translated from the current-generation
modules of the repository (src/arg.rs, src/flag.rs, src/opt.rs, src/cmd.rs,
src/error.rs).  Those modules are written against a raw-token-store module
(`crate::args`, providing `RawArgs`, `Metadata` and `Taken`) whose current
iteration is not part of the corpus; the store itself is therefore modelled
from the specification (sections 3, 4.1 and 4.6), while every matching
algorithm follows the Rust source line by line.

Rust strings are modelled as lists of characters, raw argument slots as
`Option` of such a list (`none` is the consumed sentinel), and reading an
environment variable is an explicit function argument to the take
operations (the Rust code calls the process environment directly).
-/

namespace Noargs

/-- Characters of a Rust string; `String` is modelled as `List Char`. -/
abbrev Str : Type := List Char

/-- The value of one raw argument slot: `some text` while the token is live,
`none` once consumed (the permanent sentinel of section 3 of the spec). -/
abbrev Slot : Type := Option Str

/-- Rust `str::strip_prefix`: `dropPre p s = some r` exactly when `s = p ++ r`. -/
def dropPre : Str → Str → Option Str
  | [], s => some s
  | _ :: _, [] => Option.none
  | p :: ps, c :: cs => if c = p then dropPre ps cs else Option.none

/-- Rust `String::remove` at the position of the first occurrence of `c`:
returns the list with that occurrence removed, `none` when `c` is absent. -/
def removeFirst (c : Char) : Str → Option Str
  | [] => Option.none
  | x :: xs => if x = c then some xs else (removeFirst c xs).map (x :: ·)

/-- Modelled from the spec: the indexed view of section 4.1, "restricted to
the min/max index range (defaulting to the whole range)"; `inRange lo hi i`
says index `i` falls inside it, both bounds inclusive. -/
def inRange (lo hi : Option Nat) (i : Nat) : Bool :=
  (match lo with
   | some l => decide (l ≤ i)
   | Option.none => true)
  &&
  (match hi with
   | some h => decide (i ≤ h)
   | Option.none => true)

/-- Modelled from the spec: the `Metadata` record of section 3, whose defining
module is not in the corpus (only its users are): application name and
description, the configured help flag name, whether help mode is active and
whether full help is requested. -/
structure Metadata where
  app_name : Str
  app_description : Str
  help_flag_name : Option Str
  help_mode : Bool
  full_help : Bool
deriving DecidableEq

/-- Modelled from the spec: metadata defaults (help flag configured, help mode
off), as exercised by the tests in src/error.rs. -/
def Metadata.DEFAULT : Metadata :=
  { app_name := []
    app_description := []
    help_flag_name := some ['h', 'e', 'l', 'p']
    help_mode := false
    full_help := false }

/-- Specification for a positional argument: `ArgSpec` of src/arg.rs.
The Rust field `example` is called `example_` here (`example` is a Lean
keyword). -/
structure ArgSpec where
  name : Str
  doc : Str
  default : Option Str
  example_ : Option Str
  min_index : Option Nat
  max_index : Option Nat
deriving DecidableEq

/-- Specification for a flag: `FlagSpec` of src/flag.rs. -/
structure FlagSpec where
  name : Str
  short : Option Char
  doc : Str
  env : Option Str
  min_index : Option Nat
  max_index : Option Nat
deriving DecidableEq

/-- Specification for an option with value: `OptSpec` of src/opt.rs.  Note
that the source structure carries no min/max index fields.  The Rust field
`example` is called `example_` here. -/
structure OptSpec where
  name : Str
  short : Option Char
  ty : Str
  doc : Str
  env : Option Str
  default : Option Str
  example_ : Option Str
deriving DecidableEq

/-- Specification for a subcommand: `CmdSpec` of src/cmd.rs. -/
structure CmdSpec where
  name : Str
  doc : Str
deriving DecidableEq

/-- Extraction result for a positional argument: enum `Arg` of src/arg.rs. -/
inductive Arg where
  | positional (spec : ArgSpec) (metadata : Metadata) (index : Nat) (value : Str)
  | default (spec : ArgSpec) (metadata : Metadata)
  | example_ (spec : ArgSpec) (metadata : Metadata)
  | none (spec : ArgSpec)
deriving DecidableEq

/-- Extraction result for a flag: enum `Flag` of src/flag.rs. -/
inductive Flag where
  | long (spec : FlagSpec) (index : Nat)
  | short (spec : FlagSpec) (index : Nat)
  | env (spec : FlagSpec)
  | none (spec : FlagSpec)
deriving DecidableEq

/-- Extraction result for an option: enum `Opt` of src/opt.rs. -/
inductive Opt where
  | long (spec : OptSpec) (metadata : Metadata) (index : Nat) (value : Str)
  | short (spec : OptSpec) (metadata : Metadata) (index : Nat) (value : Str)
  | env (spec : OptSpec) (metadata : Metadata) (value : Str)
  | default (spec : OptSpec) (metadata : Metadata)
  | example_ (spec : OptSpec) (metadata : Metadata)
  | missingValue (spec : OptSpec) (long : Bool)
  | none (spec : OptSpec)
deriving DecidableEq

/-- Extraction result for a subcommand: enum `Cmd` of src/cmd.rs. -/
inductive Cmd where
  | some (spec : CmdSpec) (index : Nat)
  | none (spec : CmdSpec)
deriving DecidableEq

/-- `Arg::is_present` of src/arg.rs. -/
def Arg.is_present : Arg → Bool
  | Arg.none _ => false
  | _ => true

/-- `Arg::value` of src/arg.rs (empty string when not present). -/
def Arg.value : Arg → Str
  | Arg.positional _ _ _ v => v
  | Arg.default s _ => s.default.getD []
  | Arg.example_ s _ => s.example_.getD []
  | Arg.none _ => []

/-- `Arg::index` of src/arg.rs. -/
def Arg.index : Arg → Option Nat
  | Arg.positional _ _ i _ => some i
  | _ => Option.none

/-- `Flag::is_present` of src/flag.rs. -/
def Flag.is_present : Flag → Bool
  | Flag.none _ => false
  | _ => true

/-- `Flag::index` of src/flag.rs. -/
def Flag.index : Flag → Option Nat
  | Flag.long _ i => some i
  | Flag.short _ i => some i
  | _ => Option.none

/-- `Opt::is_present` of src/opt.rs. -/
def Opt.is_present : Opt → Bool
  | Opt.none _ => false
  | _ => true

/-- `Opt::is_value_present` of src/opt.rs. -/
def Opt.is_value_present : Opt → Bool
  | Opt.none _ => false
  | Opt.missingValue _ _ => false
  | _ => true

/-- `Opt::value` of src/opt.rs (empty string for missing value or absence). -/
def Opt.value : Opt → Str
  | Opt.long _ _ _ v => v
  | Opt.short _ _ _ v => v
  | Opt.env _ _ v => v
  | Opt.default s _ => s.default.getD []
  | Opt.example_ s _ => s.example_.getD []
  | Opt.missingValue _ _ => []
  | Opt.none _ => []

/-- `Opt::index` of src/opt.rs. -/
def Opt.index : Opt → Option Nat
  | Opt.long _ _ i _ => some i
  | Opt.short _ _ i _ => some i
  | _ => Option.none

/-- `Cmd::is_present` of src/cmd.rs. -/
def Cmd.is_present : Cmd → Bool
  | Cmd.some _ _ => true
  | Cmd.none _ => false

/-- `Cmd::index` of src/cmd.rs. -/
def Cmd.index : Cmd → Option Nat
  | Cmd.some _ i => Option.some i
  | Cmd.none _ => Option.none

/-- The tagged log entry: enum `Taken` of the store module, one case per spec
kind, as used by src/error.rs and src/help.rs. -/
inductive Taken where
  | arg (a : Arg)
  | opt (o : Opt)
  | flag (f : Flag)
  | cmd (c : Cmd)
deriving DecidableEq

/-- Modelled from the spec: the raw token store of section 4.1 together with
its metadata and the append-only extraction log of section 4.6; the Rust
module defining `RawArgs` is not in the corpus, only the take implementations
and error checks that use it are. -/
structure RawArgs where
  slots : List Slot
  metadata : Metadata
  log : List Taken
deriving DecidableEq

/-- Modelled from the spec: store construction, section 6 "first element
(program path) is discarded".  Discarding must keep indices stable (section
4.1), so slot 0 becomes the consumed sentinel, matching the indices used by
the tests in the source modules. -/
def RawArgs.new (argv : List Str) : RawArgs :=
  { slots :=
      match argv with
      | [] => []
      | _ :: rest => Option.none :: rest.map some
    metadata := Metadata.DEFAULT
    log := [] }

/-- Environment with no variables set, for the concrete scenarios. -/
def envEmpty : Str → Option Str := fun _ => Option.none

/-- One candidate slot of the flag scan, the loop body of `FlagSpec::take`
(src/flag.rs lines 81 to 105): `none` means the slot does not match and is
skipped, `some (isLong, newSlot)` means it matched (long form exactly
`--name`, or short form: a single dash followed by a character cluster that
contains the short character, one occurrence of which is removed; the slot is
fully consumed when only the dash would remain). -/
def flagHead (spec : FlagSpec) (v : Str) : Option (Bool × Slot) :=
  match v with
  | [] => Option.none
  | c :: cs =>
    if c = '-' then
      match cs with
      | c2 :: cs2 =>
        if c2 = '-' then
          (if cs2 = spec.name then some (true, Option.none) else Option.none)
        else
          match spec.short with
          | some sc =>
            match removeFirst sc (c2 :: cs2) with
            | some cs' =>
              some (false, if ('-' :: cs').length = 1 then Option.none else some ('-' :: cs'))
            | Option.none => Option.none
          | Option.none => Option.none
      | [] => Option.none
    else Option.none

/-- The scan loop of `FlagSpec::take`, walking the slots in ascending index
order, restricted to the spec index range; on a match the slot is updated in
place and the scan returns. -/
def flagGo (spec : FlagSpec) (i : Nat) : List Slot → Option Flag × List Slot
  | [] => (Option.none, [])
  | slot :: rest =>
    if inRange spec.min_index spec.max_index i then
      match slot with
      | some v =>
        match flagHead spec v with
        | some p =>
          (some (if p.1 then Flag.long spec i else Flag.short spec i), p.2 :: rest)
        | Option.none =>
          let r := flagGo spec (i + 1) rest
          (r.1, slot :: r.2)
      | Option.none =>
        let r := flagGo spec (i + 1) rest
        (r.1, slot :: r.2)
    else
      let r := flagGo spec (i + 1) rest
      (r.1, slot :: r.2)

/-- `FlagSpec::take` on the slot list: scan, then environment fallback (a
present non-empty variable counts as set), else absent. -/
def FlagSpec.takeCore (spec : FlagSpec) (envf : Str → Option Str) (slots : List Slot) :
    Flag × List Slot :=
  match flagGo spec 0 slots with
  | (some f, ys) => (f, ys)
  | (Option.none, ys) =>
    (if (match spec.env with
         | some nm =>
           (match envf nm with
            | some v => decide (v ≠ [])
            | Option.none => false)
         | Option.none => false)
     then Flag.env spec
     else Flag.none spec, ys)

/-- `FlagSpec::take` of src/flag.rs, with the log append performed by the
store's record wrapper (spec section 4.6: every take appends its result). -/
def FlagSpec.take (spec : FlagSpec) (envf : Str → Option Str) (st : RawArgs) :
    Flag × RawArgs :=
  let r := spec.takeCore envf st.slots
  (r.1, { st with slots := r.2, log := st.log ++ [Taken.flag r.1] })

/-- The scan loop of `ArgSpec::take` (src/arg.rs lines 99 to 108): the first
present slot in the index range is consumed unconditionally. -/
def argGo (spec : ArgSpec) (md : Metadata) (i : Nat) : List Slot → Option Arg × List Slot
  | [] => (Option.none, [])
  | slot :: rest =>
    if inRange spec.min_index spec.max_index i then
      match slot with
      | some v => (some (Arg.positional spec md i v), Option.none :: rest)
      | Option.none =>
        let r := argGo spec md (i + 1) rest
        (r.1, slot :: r.2)
    else
      let r := argGo spec md (i + 1) rest
      (r.1, slot :: r.2)

/-- `ArgSpec::take` on the slot list: in help mode resolve immediately from
default, then example, else absent, without scanning; otherwise scan, then
fall back to the default, else absent. -/
def ArgSpec.takeCore (spec : ArgSpec) (md : Metadata) (slots : List Slot) :
    Arg × List Slot :=
  if md.help_mode then
    (if spec.default.isSome then Arg.default spec md
     else if spec.example_.isSome then Arg.example_ spec md
     else Arg.none spec, slots)
  else
    match argGo spec md 0 slots with
    | (some a, ys) => (a, ys)
    | (Option.none, ys) =>
      (if spec.default.isSome then Arg.default spec md else Arg.none spec, ys)

/-- `ArgSpec::take` of src/arg.rs, with the log append of the record wrapper. -/
def ArgSpec.take (spec : ArgSpec) (st : RawArgs) : Arg × RawArgs :=
  let r := spec.takeCore st.metadata st.slots
  (r.1, { st with slots := r.2, log := st.log ++ [Taken.arg r.1] })

/-- Head decision of the option scan, the non-pending part of the loop body of
`OptSpec::take` (src/opt.rs lines 133 to 198), for a present slot `v`:
`skip` (no match), `ret` (single-slot consumption: `--name=value`, or the
short form with a directly concatenated value), or `pend` (the name slot alone
matched and the value is pending in the next slot). -/
inductive OptHead where
  | skip
  | ret (isLong : Bool) (value : Str)
  | pend (isLong : Bool)
deriving DecidableEq

/-- Computes the `OptHead` decision for one present slot, following
src/opt.rs: a leading `--` takes the long branch (name must be followed by
nothing or by `=`); a single dash takes the short branch (the character right
after the dash must be the short character; anything after it is a
concatenated value). -/
def optHead (spec : OptSpec) (v : Str) : OptHead :=
  match v with
  | [] => OptHead.skip
  | c :: cs =>
    if c = '-' then
      match cs with
      | c2 :: cs2 =>
        if c2 = '-' then
          match dropPre spec.name cs2 with
          | some [] => OptHead.pend true
          | some (t :: ts) => if t = '=' then OptHead.ret true ts else OptHead.skip
          | Option.none => OptHead.skip
        else
          match spec.short with
          | some sc =>
            if c2 = sc then (if cs2 = [] then OptHead.pend false else OptHead.ret false cs2)
            else OptHead.skip
          | Option.none => OptHead.skip
      | [] => OptHead.skip
    else OptHead.skip

/-- Builds the live option result (`Opt::Long` or `Opt::Short`). -/
def mkLive (spec : OptSpec) (md : Metadata) (isLong : Bool) (idx : Nat) (v : Str) : Opt :=
  if isLong then Opt.long spec md idx v else Opt.short spec md idx v

/-- The scan loop of `OptSpec::take` (src/opt.rs lines 114 to 199) with its
pending state: when a bare name slot was consumed, the very next iteration
must consume that slot's value; an already consumed (or missing) next slot
yields the missing-value result. -/
def optGo (spec : OptSpec) (md : Metadata) (i : Nat) (pending : Option (Bool × Nat)) :
    List Slot → Option Opt × List Slot
  | [] =>
    match pending with
    | some p => (some (Opt.missingValue spec p.1), [])
    | Option.none => (Option.none, [])
  | slot :: rest =>
    match pending with
    | some p =>
      match slot with
      | some v => (some (mkLive spec md p.1 p.2 v), Option.none :: rest)
      | Option.none => (some (Opt.missingValue spec p.1), Option.none :: rest)
    | Option.none =>
      match slot with
      | Option.none =>
        let r := optGo spec md (i + 1) Option.none rest
        (r.1, slot :: r.2)
      | some v =>
        match optHead spec v with
        | OptHead.skip =>
          let r := optGo spec md (i + 1) Option.none rest
          (r.1, slot :: r.2)
        | OptHead.ret isLong val => (some (mkLive spec md isLong i val), Option.none :: rest)
        | OptHead.pend isLong =>
          let r := optGo spec md (i + 1) (some (isLong, i)) rest
          (r.1, Option.none :: r.2)

/-- The fallback chain after an unsuccessful option scan (src/opt.rs lines
216 to 228): declared default, else example (in help mode only; dead here
because the help branch returns earlier), else absent. -/
def optFallback (spec : OptSpec) (md : Metadata) : Opt :=
  if spec.default.isSome then Opt.default spec md
  else if spec.example_.isSome && md.help_mode then Opt.example_ spec md
  else Opt.none spec

/-- `OptSpec::take` on the slot list: in help mode resolve immediately from
default, then example, else absent, without scanning; otherwise run the scan;
when it resolves nothing, a present non-empty environment variable wins,
then the fallback chain. -/
def OptSpec.takeCore (spec : OptSpec) (envf : Str → Option Str) (md : Metadata)
    (slots : List Slot) : Opt × List Slot :=
  if md.help_mode then
    (if spec.default.isSome then Opt.default spec md
     else if spec.example_.isSome then Opt.example_ spec md
     else Opt.none spec, slots)
  else
    match optGo spec md 0 Option.none slots with
    | (some o, ys) => (o, ys)
    | (Option.none, ys) =>
      ((match spec.env with
        | some nm =>
          (match envf nm with
           | some v => if v ≠ [] then Opt.env spec md v else optFallback spec md
           | Option.none => optFallback spec md)
        | Option.none => optFallback spec md), ys)

/-- `OptSpec::take` of src/opt.rs, with the log append of the record wrapper. -/
def OptSpec.take (spec : OptSpec) (envf : Str → Option Str) (st : RawArgs) :
    Opt × RawArgs :=
  let r := spec.takeCore envf st.metadata st.slots
  (r.1, { st with slots := r.2, log := st.log ++ [Taken.opt r.1] })

/-- The scan loop of `CmdSpec::take` (src/cmd.rs lines 34 to 46): consumed
slots are skipped; the first still-present slot either equals the subcommand
name (and is consumed) or the scan breaks, so a subcommand can only ever be
the next unconsumed token. -/
def cmdGo (spec : CmdSpec) (i : Nat) : List Slot → Option Cmd × List Slot
  | [] => (Option.none, [])
  | slot :: rest =>
    match slot with
    | Option.none =>
      let r := cmdGo spec (i + 1) rest
      (r.1, slot :: r.2)
    | some v =>
      if v = spec.name then (some (Cmd.some spec i), Option.none :: rest)
      else (Option.none, slot :: rest)

/-- `CmdSpec::take` on the slot list. -/
def CmdSpec.takeCore (spec : CmdSpec) (slots : List Slot) : Cmd × List Slot :=
  match cmdGo spec 0 slots with
  | (some c, ys) => (c, ys)
  | (Option.none, ys) => (Cmd.none spec, ys)

/-- `CmdSpec::take` of src/cmd.rs, with the log append of the record wrapper. -/
def CmdSpec.take (spec : CmdSpec) (st : RawArgs) : Cmd × RawArgs :=
  let r := spec.takeCore st.slots
  (r.1, { st with slots := r.2, log := st.log ++ [Taken.cmd r.1] })

/-- Modelled from the spec: `RawArgs::remaining_args`, read-only iteration
over the still-present (index, value) pairs in ascending order (section 4.1);
used by the command error check of src/error.rs. -/
def remainingArgs (i : Nat) : List Slot → List (Nat × Str)
  | [] => []
  | Option.none :: rest => remainingArgs (i + 1) rest
  | some v :: rest => (i, v) :: remainingArgs (i + 1) rest

/-- The error cases of enum `Error` in src/error.rs that the finish-time
command check can produce. -/
inductive Error where
  | unexpectedArg (metadata : Metadata) (raw_arg : Str)
  | undefinedCommand (metadata : Metadata) (raw_arg : Str)
  | missingCommand (metadata : Metadata)
deriving DecidableEq

/-- `Error::check_command_error` of src/error.rs (lines 57 to 74): only when
the last logged entry is a subcommand result, and it has no match, an error is
produced; it names the first still-present raw token, or reports a missing
command when the store is exhausted.  `some e` models the Err case. -/
def Error.check_command_error (st : RawArgs) : Option Error :=
  match st.log.getLast? with
  | some (Taken.cmd c) =>
    if c.is_present then Option.none
    else
      match remainingArgs 0 st.slots with
      | (_, raw) :: _ => some (Error.undefinedCommand st.metadata raw)
      | [] => some (Error.missingCommand st.metadata)
  | _ => Option.none

/-- `Error::check_unexpected_arg` of src/error.rs (lines 76 to 85): any
still-present raw token is an error naming that literal token. -/
def Error.check_unexpected_arg (st : RawArgs) : Option Error :=
  match remainingArgs 0 st.slots with
  | (_, raw) :: _ => some (Error.unexpectedArg st.metadata raw)
  | [] => Option.none

/-- `OptSpec::DEFAULT` of src/opt.rs. -/
def OptSpec.DEFAULT : OptSpec :=
  { name := []
    short := Option.none
    ty := ['V', 'A', 'L', 'U', 'E']
    doc := []
    env := Option.none
    default := Option.none
    example_ := Option.none }

/-- `OptSpec::new` of src/opt.rs. -/
def OptSpec.new (name : Str) : OptSpec :=
  { OptSpec.DEFAULT with name := name }

/-- `FlagSpec::DEFAULT` of src/flag.rs. -/
def FlagSpec.DEFAULT : FlagSpec :=
  { name := []
    short := Option.none
    doc := []
    env := Option.none
    min_index := Option.none
    max_index := Option.none }

/-- `FlagSpec::new` of src/flag.rs. -/
def FlagSpec.new (name : Str) : FlagSpec :=
  { FlagSpec.DEFAULT with name := name }

/-- `CmdSpec::new` of src/cmd.rs. -/
def CmdSpec.new (name : Str) : CmdSpec :=
  { name := name, doc := [] }

/-- `ArgSpec::DEFAULT` of src/arg.rs. -/
def ArgSpec.DEFAULT : ArgSpec :=
  { name := ['A', 'R', 'G', 'U', 'M', 'E', 'N', 'T']
    doc := []
    default := Option.none
    example_ := Option.none
    min_index := Option.none
    max_index := Option.none }

/-- `ArgSpec::new` of src/arg.rs. -/
def ArgSpec.new (name : Str) : ArgSpec :=
  { ArgSpec.DEFAULT with name := name }

/-- The option spec of the scenarios: long name foo, short name f. -/
def fooOpt : OptSpec :=
  { OptSpec.new ['f', 'o', 'o'] with short := some 'f' }

/-- The token store of the C1 scenario (program name, then the five tokens). -/
def c1Store : RawArgs :=
  RawArgs.new
    [['p', 'r', 'o', 'g'], ['-', '-', 'f', 'o', 'o'], ['1'],
     ['-', 'f'], ['2'], ['-', '-', 'f', 'o', 'o']]

/-- Default metadata with help mode switched on. -/
def helpMd : Metadata := { Metadata.DEFAULT with help_mode := true }

/-- A flag spec with short name b, for the clustering scenario. -/
def flagB : FlagSpec := { FlagSpec.new ['B'] with short := some 'b' }

/-- A flag spec with short name f, for the clustering scenario. -/
def flagF : FlagSpec := { FlagSpec.new ['F'] with short := some 'f' }

/-- The store of the clustering scenario: the single live token dash-b-f. -/
def bfStore : RawArgs := RawArgs.mk [some ['-', 'b', 'f']] Metadata.DEFAULT []

/-- The flag spec of several scenarios: long name foo. -/
def flagFoo : FlagSpec := FlagSpec.new ['f', 'o', 'o']

/-- Modelled from the spec: section 3 lists min/max index among the fields of
the Option spec and section 4.4 walks "per candidate slot in the bounded
range"; the implementation's OptSpec (src/opt.rs) carries no such fields.
This bounded variant follows the spec's words, for comparison with the code:
only slots whose index lies in the range are yielded to the scan loop. -/
structure OptSpecB where
  base : OptSpec
  min_index : Option Nat
  max_index : Option Nat
deriving DecidableEq

/-- Modelled from the spec: the option scan of section 4.4 restricted to the
bounded index range; slots outside the range are not examined and left
untouched, exactly as the indexed view of section 4.1 would skip them. -/
def optGoB (spec : OptSpecB) (md : Metadata) (i : Nat) (pending : Option (Bool × Nat)) :
    List Slot → Option Opt × List Slot
  | [] =>
    match pending with
    | some p => (some (Opt.missingValue spec.base p.1), [])
    | Option.none => (Option.none, [])
  | slot :: rest =>
    if inRange spec.min_index spec.max_index i then
      match pending with
      | some p =>
        match slot with
        | some v => (some (mkLive spec.base md p.1 p.2 v), Option.none :: rest)
        | Option.none => (some (Opt.missingValue spec.base p.1), Option.none :: rest)
      | Option.none =>
        match slot with
        | Option.none =>
          let r := optGoB spec md (i + 1) Option.none rest
          (r.1, slot :: r.2)
        | some v =>
          match optHead spec.base v with
          | OptHead.skip =>
            let r := optGoB spec md (i + 1) Option.none rest
            (r.1, slot :: r.2)
          | OptHead.ret isLong val =>
            (some (mkLive spec.base md isLong i val), Option.none :: rest)
          | OptHead.pend isLong =>
            let r := optGoB spec md (i + 1) (some (isLong, i)) rest
            (r.1, Option.none :: r.2)
    else
      let r := optGoB spec md (i + 1) pending rest
      (r.1, slot :: r.2)

/-- Modelled from the spec: take for the bounded option variant, identical to
`OptSpec.takeCore` except that the scan is the bounded one. -/
def OptSpecB.takeCore (spec : OptSpecB) (envf : Str → Option Str) (md : Metadata)
    (slots : List Slot) : Opt × List Slot :=
  if md.help_mode then
    (if spec.base.default.isSome then Opt.default spec.base md
     else if spec.base.example_.isSome then Opt.example_ spec.base md
     else Opt.none spec.base, slots)
  else
    match optGoB spec md 0 Option.none slots with
    | (some o, ys) => (o, ys)
    | (Option.none, ys) =>
      ((match spec.base.env with
        | some nm =>
          (match envf nm with
           | some v => if v ≠ [] then Opt.env spec.base md v else optFallback spec.base md
           | Option.none => optFallback spec.base md)
        | Option.none => optFallback spec.base md), ys)

/-- One slot evolves only by in-place consumption: it is unchanged, or it was
live and became the consumed sentinel, or it was live and strictly shrank (a
short flag character removed from its cluster).  Content never moves between
indices. -/
def slotStep (old new : Slot) : Prop :=
  new = old ∨
    ∃ v, old = some v ∧
      (new = Option.none ∨ ∃ v', new = some v' ∧ v'.length < v.length)

/-- C1: for the token store built from the six tokens prog, dash-dash-foo, 1,
dash-f, 2, dash-dash-foo and the option spec with long name foo and short
name f, three successive take calls yield first a long-name live match at
index 1 with value 1, second a short-name live match at index 3 with value 2,
and third the missing-value state for the trailing bare long name: present
but without a value, not a fresh live match with a value. -/
theorem c1_opt_take_scenario :
    (fooOpt.take envEmpty c1Store).1 = Opt.long fooOpt Metadata.DEFAULT 1 ['1'] ∧
    (fooOpt.take envEmpty (fooOpt.take envEmpty c1Store).2).1
      = Opt.short fooOpt Metadata.DEFAULT 3 ['2'] ∧
    (fooOpt.take envEmpty
        (fooOpt.take envEmpty (fooOpt.take envEmpty c1Store).2).2).1
      = Opt.missingValue fooOpt true ∧
    (fooOpt.take envEmpty
        (fooOpt.take envEmpty (fooOpt.take envEmpty c1Store).2).2).1.is_present = true ∧
    (fooOpt.take envEmpty
        (fooOpt.take envEmpty (fooOpt.take envEmpty c1Store).2).2).1.is_value_present
      = false := by
  decide

/-- C2 counterexample: with help mode active, flag extraction still scans the
live tokens: on the store holding the single live token dash-dash-foo, taking
the flag foo returns a long-form live match and consumes the slot, so the raw
token store is changed by the call, contradicting the claim for the flag
spec kind. -/
theorem c2_counterexample :
    (flagFoo.take envEmpty
        (RawArgs.mk [some ['-', '-', 'f', 'o', 'o']] helpMd [])).1 = Flag.long flagFoo 0 ∧
    (flagFoo.take envEmpty
        (RawArgs.mk [some ['-', '-', 'f', 'o', 'o']] helpMd [])).2.slots = [Option.none] ∧
    ([Option.none] : List Slot) ≠ [some ['-', '-', 'f', 'o', 'o']] := by
  decide

/-- C2 amended: help-mode purity holds for the positional-argument and option
spec kinds: with help mode active their take calls leave the raw token store
unchanged and the result resolves only from the declared default, the
declared example, or absence.  Flag and subcommand extraction ignore help
mode and still scan live tokens, hence the restriction. -/
theorem c2_amended_help_mode_purity :
    (∀ (spec : ArgSpec) (st : RawArgs), st.metadata.help_mode = true →
        (spec.take st).2.slots = st.slots ∧
        ((spec.take st).1 = Arg.default spec st.metadata ∨
         (spec.take st).1 = Arg.example_ spec st.metadata ∨
         (spec.take st).1 = Arg.none spec)) ∧
    (∀ (spec : OptSpec) (envf : Str → Option Str) (st : RawArgs),
        st.metadata.help_mode = true →
        (spec.take envf st).2.slots = st.slots ∧
        ((spec.take envf st).1 = Opt.default spec st.metadata ∨
         (spec.take envf st).1 = Opt.example_ spec st.metadata ∨
         (spec.take envf st).1 = Opt.none spec)) := by
  constructor
  · intro spec st h
    by_cases hd : spec.default.isSome <;> by_cases he : spec.example_.isSome <;>
      simp [ArgSpec.take, ArgSpec.takeCore, h, hd, he]
  · intro spec envf st h
    by_cases hd : spec.default.isSome <;> by_cases he : spec.example_.isSome <;>
      simp [OptSpec.take, OptSpec.takeCore, h, hd, he]

/-- Witness for the amended C2 theorem at a concrete input: an argument spec
without default or example, in help mode, on a store with one live token. -/
theorem c2_amended_witness :
    ((ArgSpec.new ['A']).take (RawArgs.mk [some ['x']] helpMd [])).2.slots
      = (RawArgs.mk [some ['x']] helpMd []).slots ∧
    (((ArgSpec.new ['A']).take (RawArgs.mk [some ['x']] helpMd [])).1
        = Arg.default (ArgSpec.new ['A']) (RawArgs.mk [some ['x']] helpMd []).metadata ∨
     ((ArgSpec.new ['A']).take (RawArgs.mk [some ['x']] helpMd [])).1
        = Arg.example_ (ArgSpec.new ['A']) (RawArgs.mk [some ['x']] helpMd []).metadata ∨
     ((ArgSpec.new ['A']).take (RawArgs.mk [some ['x']] helpMd [])).1
        = Arg.none (ArgSpec.new ['A'])) :=
  c2_amended_help_mode_purity.1 (ArgSpec.new ['A']) (RawArgs.mk [some ['x']] helpMd []) rfl

/-- Stripping a literal prefix from its own extension leaves the extension. -/
theorem dropPre_append (p s : Str) : dropPre p (p ++ s) = some s := by
  induction p with
  | nil => rfl
  | cons c cs ih => simp [dropPre, ih]

/-- The option scan with no pending state walks over consumed slots
untouched. -/
theorem optGo_skip_nones (spec : OptSpec) (md : Metadata) :
    ∀ (n i : Nat) (rest : List Slot),
      optGo spec md i Option.none (List.replicate n Option.none ++ rest)
        = ((optGo spec md (i + n) Option.none rest).1,
           List.replicate n Option.none ++ (optGo spec md (i + n) Option.none rest).2) := by
  intro n
  induction n with
  | zero => intro i rest; simp [optGo]
  | succ n ih =>
    intro i rest
    have e1 : List.replicate (n + 1) (Option.none : Slot) ++ rest
        = Option.none :: (List.replicate n Option.none ++ rest) := by
      simp [List.replicate_succ]
    rw [e1]
    simp only [optGo]
    rw [ih (i + 1) rest]
    have e2 : i + 1 + n = i + (n + 1) := by omega
    simp [e2, List.replicate_succ]

/-- With a pending name match, a run of already consumed slots resolves to
the missing-value state (the next slot's value was already taken, or the
store is exhausted). -/
theorem optGo_pending_nones (spec : OptSpec) (md : Metadata) (b : Bool) (p : Nat)
    (m i : Nat) :
    optGo spec md i (some (b, p)) (List.replicate m Option.none)
      = (some (Opt.missingValue spec b), List.replicate m Option.none) := by
  cases m with
  | zero => rfl
  | succ m => simp [List.replicate_succ, optGo]

/-- A bare short-name token produces the pending state in the option scan. -/
theorem optHead_bare_short (spec : OptSpec) (c : Char) (hs : spec.short = some c)
    (hc : c ≠ '-') : optHead spec ['-', c] = OptHead.pend false := by
  simp [optHead, hs, hc]

/-- C5: whenever the option's bare short-name token is the only live content
of the store (any number of already consumed slots before it, and after it
only consumed slots or the end of the store), take returns the missing-value
state: the option counts as present but without a value, distinct from
absence. -/
theorem c5_opt_missing_value (spec : OptSpec) (c : Char) (n m : Nat)
    (envf : Str → Option Str) (lg : List Taken)
    (hs : spec.short = some c) (hc : c ≠ '-') :
    (spec.take envf
        (RawArgs.mk
          (List.replicate n Option.none ++ some ['-', c] :: List.replicate m Option.none)
          Metadata.DEFAULT lg)).1 = Opt.missingValue spec false ∧
    (Opt.missingValue spec false).is_present = true ∧
    (Opt.missingValue spec false).is_value_present = false := by
  refine ⟨?_, rfl, rfl⟩
  have hm : Metadata.DEFAULT.help_mode = false := rfl
  have h2 : optHead spec ['-', c] = OptHead.pend false := optHead_bare_short spec c hs hc
  have h3 := optGo_pending_nones spec Metadata.DEFAULT false (0 + n) m (0 + n + 1)
  have hmid : optGo spec Metadata.DEFAULT (0 + n) Option.none
      (some ['-', c] :: List.replicate m Option.none)
      = (some (Opt.missingValue spec false), Option.none :: List.replicate m Option.none) := by
    simp only [optGo, h2]
    rw [h3]
  have h1 := optGo_skip_nones spec Metadata.DEFAULT n 0
    (some ['-', c] :: List.replicate m Option.none)
  rw [hmid] at h1
  simp [OptSpec.take, OptSpec.takeCore, hm, h1]

/-- C5 witness: the store built from the single live token dash-f and the
option spec foo with short name f. -/
theorem c5_witness :
    (fooOpt.take envEmpty (RawArgs.mk [some ['-', 'f']] Metadata.DEFAULT [])).1
      = Opt.missingValue fooOpt false ∧
    (Opt.missingValue fooOpt false).is_present = true ∧
    (Opt.missingValue fooOpt false).is_value_present = false :=
  c5_opt_missing_value fooOpt 'f' 0 0 envEmpty [] rfl (by decide)

/-- C10: a live token of the form dash-dash-name-equals-rest is consumed as a
single slot with everything after the first equals sign taken verbatim as the
value; in particular dash-dash-name-equals with nothing after the equals sign
yields a present long-name match whose value is the empty string (present and
value-present), not a missing-value state. -/
theorem c10_opt_equals_value (spec : OptSpec) (envf : Str → Option Str)
    (rest : Str) (lg : List Taken) :
    (spec.take envf
        (RawArgs.mk [some ('-' :: '-' :: (spec.name ++ '=' :: rest))]
          Metadata.DEFAULT lg)).1
      = Opt.long spec Metadata.DEFAULT 0 rest ∧
    (spec.take envf
        (RawArgs.mk [some ('-' :: '-' :: (spec.name ++ '=' :: rest))]
          Metadata.DEFAULT lg)).2.slots = [Option.none] ∧
    (fooOpt.take envEmpty
        (RawArgs.mk [some ['-', '-', 'f', 'o', 'o', '=']] Metadata.DEFAULT [])).1
      = Opt.long fooOpt Metadata.DEFAULT 0 [] ∧
    (fooOpt.take envEmpty
        (RawArgs.mk [some ['-', '-', 'f', 'o', 'o', '=']] Metadata.DEFAULT [])).1.is_present
      = true ∧
    (fooOpt.take envEmpty
        (RawArgs.mk [some ['-', '-', 'f', 'o', 'o', '=']] Metadata.DEFAULT [])).1.is_value_present
      = true := by
  have hm : Metadata.DEFAULT.help_mode = false := rfl
  have hh : optHead spec ('-' :: '-' :: (spec.name ++ '=' :: rest))
      = OptHead.ret true rest := by
    simp [optHead, dropPre_append]
  refine ⟨?_, ?_, by decide, by decide, by decide⟩ <;>
    simp [OptSpec.take, OptSpec.takeCore, hm, optGo, hh, mkLive]

/-- A fully consumed store yields no subcommand match and is left unchanged. -/
theorem cmdGo_all_none (spec : CmdSpec) :
    ∀ (xs : List Slot) (i : Nat), (∀ s ∈ xs, s = Option.none) →
      cmdGo spec i xs = (Option.none, xs) := by
  intro xs
  induction xs with
  | nil => intro i _; rfl
  | cons slot rest ih =>
    intro i h
    have hs : slot = Option.none := h slot (List.mem_cons_self _ _)
    subst hs
    simp [cmdGo, ih (i + 1) (fun s hs => h s (List.mem_cons_of_mem _ hs))]

/-- The subcommand scan on a store whose first still-present slot holds `v`:
on name equality that slot alone is consumed, otherwise the scan breaks with
the store unchanged (src/cmd.rs lines 34 to 46). -/
theorem cmdGo_decomp (spec : CmdSpec) :
    ∀ (pre : List Slot) (v : Str) (post : List Slot) (i : Nat),
      (∀ s ∈ pre, s = Option.none) →
      cmdGo spec i (pre ++ some v :: post)
        = if v = spec.name
          then (some (Cmd.some spec (i + pre.length)), pre ++ Option.none :: post)
          else (Option.none, pre ++ some v :: post) := by
  intro pre
  induction pre with
  | nil =>
    intro v post i _
    by_cases hv : v = spec.name <;> simp [cmdGo, hv]
  | cons s pre ih =>
    intro v post i h
    have hs : s = Option.none := h s (List.mem_cons_self _ _)
    subst hs
    have hrec := ih v post (i + 1) (fun s hs => h s (List.mem_cons_of_mem _ hs))
    by_cases hv : v = spec.name
    · subst hv
      rw [if_pos rfl] at hrec
      have harith : i + 1 + pre.length = i + (pre.length + 1) := by omega
      simp [cmdGo, hrec, harith]
    · rw [if_neg hv] at hrec
      simp [cmdGo, hrec, hv]

/-- Any successful subcommand scan consumed exactly the first still-present
slot, whose text equals the subcommand name, at its original index. -/
theorem cmdGo_some (spec : CmdSpec) :
    ∀ (xs : List Slot) (i : Nat) (c : Cmd) (ys : List Slot),
      cmdGo spec i xs = (some c, ys) →
      ∃ pre v post, xs = pre ++ some v :: post ∧ (∀ s ∈ pre, s = Option.none) ∧
        v = spec.name ∧ c = Cmd.some spec (i + pre.length) ∧
        ys = pre ++ Option.none :: post := by
  intro xs
  induction xs with
  | nil => intro i c ys h; simp [cmdGo] at h
  | cons slot rest ih =>
    intro i c ys h
    cases slot with
    | none =>
      rcases hr : cmdGo spec (i + 1) rest with ⟨ro, rys⟩
      simp only [cmdGo, hr, Prod.mk.injEq] at h
      obtain ⟨h1, h2⟩ := h
      obtain ⟨pre, v, post, hxs, hpre, hv, hc, hys2⟩ :=
        ih (i + 1) c rys (by rw [hr, h1])
      refine ⟨Option.none :: pre, v, post, by simp [hxs], ?_, hv, ?_, ?_⟩
      · intro s hs
        rcases List.mem_cons.mp hs with h' | h'
        · exact h'
        · exact hpre s h'
      · rw [hc]; simp; omega
      · rw [← h2, hys2]; simp
    | some v =>
      simp only [cmdGo] at h
      by_cases hv : v = spec.name
      · rw [if_pos hv] at h
        simp only [Prod.mk.injEq] at h
        refine ⟨[], v, rest, rfl, by simp, hv, ?_, ?_⟩
        · simpa using (Option.some.inj h.1).symm
        · simpa using h.2.symm
      · rw [if_neg hv] at h
        simp at h

/-- C7: subcommand extraction matches only the next unconsumed token: take
returns a present result with the matched index exactly when the first
still-present slot's text equals the subcommand name (that slot is then
consumed); when the first still-present token differs from the name, or no
token remains, the result is absent and the store unchanged, even when an
equal token occurs later in the store. -/
theorem c7_cmd_next_unconsumed (spec : CmdSpec) (st : RawArgs) :
    (∀ (pre : List Slot) (v : Str) (post : List Slot),
        st.slots = pre ++ some v :: post →
        (∀ s ∈ pre, s = Option.none) →
        (v = spec.name →
            (spec.take st).1 = Cmd.some spec pre.length ∧
            (spec.take st).2.slots = pre ++ Option.none :: post) ∧
        (v ≠ spec.name →
            (spec.take st).1 = Cmd.none spec ∧
            (spec.take st).2.slots = st.slots)) ∧
    ((∀ s ∈ st.slots, s = Option.none) →
        (spec.take st).1 = Cmd.none spec ∧ (spec.take st).2.slots = st.slots) ∧
    (∀ i, (spec.take st).1 = Cmd.some spec i →
        ∃ pre v post, st.slots = pre ++ some v :: post ∧
          (∀ s ∈ pre, s = Option.none) ∧ v = spec.name ∧ i = pre.length) := by
  refine ⟨?_, ?_, ?_⟩
  · intro pre v post hdec hpre
    have hgo := cmdGo_decomp spec pre v post 0 hpre
    constructor
    · intro hv
      rw [if_pos hv] at hgo
      simp [CmdSpec.take, CmdSpec.takeCore, hdec, hgo]
    · intro hv
      rw [if_neg hv] at hgo
      simp [CmdSpec.take, CmdSpec.takeCore, hdec, hgo]
  · intro hall
    have hgo := cmdGo_all_none spec st.slots 0 hall
    simp [CmdSpec.take, CmdSpec.takeCore, hgo]
  · intro i hi
    rcases hr : cmdGo spec 0 st.slots with ⟨ro, rys⟩
    cases ro with
    | none =>
      simp [CmdSpec.take, CmdSpec.takeCore, hr] at hi
    | some c =>
      obtain ⟨pre, v, post, hxs, hpre, hv, hc, _⟩ := cmdGo_some spec st.slots 0 c rys hr
      refine ⟨pre, v, post, hxs, hpre, hv, ?_⟩
      simp [CmdSpec.take, CmdSpec.takeCore, hr] at hi
      have he := hc.symm.trans hi
      injection he with _ he2
      omega

/-- C7 witness: on the store with live tokens x then run, taking the
subcommand run is absent even though run occurs later. -/
theorem c7_witness :
    ((CmdSpec.new ['r', 'u', 'n']).take
        (RawArgs.mk [some ['x'], some ['r', 'u', 'n']] Metadata.DEFAULT [])).1
      = Cmd.none (CmdSpec.new ['r', 'u', 'n']) ∧
    ((CmdSpec.new ['r', 'u', 'n']).take
        (RawArgs.mk [some ['x'], some ['r', 'u', 'n']] Metadata.DEFAULT [])).2.slots
      = (RawArgs.mk [some ['x'], some ['r', 'u', 'n']] Metadata.DEFAULT []).slots :=
  ((c7_cmd_next_unconsumed (CmdSpec.new ['r', 'u', 'n'])
      (RawArgs.mk [some ['x'], some ['r', 'u', 'n']] Metadata.DEFAULT [])).1
    [] ['x'] [some ['r', 'u', 'n']] rfl (by simp)).2 (by decide)

/-- C8: the finish-time command check errs exactly when the last logged
extraction is a subcommand result with no match; the error is then undefined
command naming the first still-present raw token when one remains, and
missing command when the store is exhausted. -/
theorem c8_command_error (st : RawArgs) :
    ((Error.check_command_error st).isSome = true ↔
      ∃ c, st.log.getLast? = some (Taken.cmd c) ∧ c.is_present = false) ∧
    (∀ c i v, st.log.getLast? = some (Taken.cmd c) → c.is_present = false →
        (remainingArgs 0 st.slots).head? = some (i, v) →
        Error.check_command_error st = some (Error.undefinedCommand st.metadata v)) ∧
    (∀ c, st.log.getLast? = some (Taken.cmd c) → c.is_present = false →
        remainingArgs 0 st.slots = [] →
        Error.check_command_error st = some (Error.missingCommand st.metadata)) := by
  refine ⟨?_, ?_, ?_⟩
  · unfold Error.check_command_error
    rcases hl : st.log.getLast? with _ | t
    · simp
    · cases t with
      | arg a => simp
      | opt o => simp
      | flag f => simp
      | cmd c =>
        cases hp : c.is_present with
        | true => simp [hp]
        | false =>
          rcases hr : remainingArgs 0 st.slots with _ | ⟨⟨j, w⟩, rest⟩ <;>
            simp [hp, hr]
  · intro c i v hl hp hr
    unfold Error.check_command_error
    rcases hx : remainingArgs 0 st.slots with _ | ⟨⟨j, w⟩, rest⟩
    · rw [hx] at hr; simp at hr
    · rw [hx] at hr
      simp only [List.head?] at hr
      have : w = v := (Prod.mk.injEq .. ▸ Option.some.inj hr).2
      simp [hl, hp, hx, this]
  · intro c hl hp hx
    unfold Error.check_command_error
    simp [hl, hp, hx]

/-- C8 witness: a log ending in an absent subcommand result with a live token
remaining yields the undefined-command error naming that token. -/
theorem c8_witness :
    Error.check_command_error
        (RawArgs.mk [some ['b', 'a', 'z']] Metadata.DEFAULT
          [Taken.cmd (Cmd.none (CmdSpec.new ['f', 'o', 'o']))])
      = some (Error.undefinedCommand Metadata.DEFAULT ['b', 'a', 'z']) :=
  (c8_command_error _).2.1 (Cmd.none (CmdSpec.new ['f', 'o', 'o'])) 0 ['b', 'a', 'z']
    rfl rfl rfl

/-- Removing the first occurrence succeeds exactly when the character occurs. -/
theorem removeFirst_isSome (c : Char) :
    ∀ (l : Str), (removeFirst c l).isSome = true ↔ c ∈ l := by
  intro l
  induction l with
  | nil => simp [removeFirst]
  | cons x xs ih =>
    by_cases hx : x = c
    · simp [removeFirst, hx]
    · rw [show removeFirst c (x :: xs) = (removeFirst c xs).map (x :: ·) from by
        simp [removeFirst, hx]]
      rw [Option.isSome_map', ih]
      constructor
      · exact fun h => List.mem_cons_of_mem _ h
      · intro h
        rcases List.mem_cons.mp h with h1 | h1
        · exact absurd h1.symm hx
        · exact h1

/-- Removing one occurrence shortens the list by exactly one. -/
theorem removeFirst_length (c : Char) :
    ∀ (l l' : Str), removeFirst c l = some l' → l'.length + 1 = l.length := by
  intro l
  induction l with
  | nil => intro l' h; simp [removeFirst] at h
  | cons x xs ih =>
    intro l' h
    by_cases hx : x = c
    · simp [removeFirst, hx] at h
      simp [← h]
    · simp [removeFirst, hx] at h
      rcases h with ⟨a, ha, hl⟩
      have := ih a ha
      simp [← hl, ← this]

/-- Flag take on a one-slot store, written through the head decision. -/
theorem flag_takeCore_single (spec : FlagSpec) (v : Str)
    (hmin : spec.min_index = Option.none) (hmax : spec.max_index = Option.none) :
    spec.takeCore envEmpty [some v]
      = (match flagHead spec v with
         | some p => ((if p.1 then Flag.long spec 0 else Flag.short spec 0), ([p.2] : List Slot))
         | Option.none => (Flag.none spec, [some v])) := by
  rcases he : spec.env with _ | nm <;>
    rcases hh : flagHead spec v with _ | p <;>
      simp [FlagSpec.takeCore, flagGo, inRange, hmin, hmax, hh, he, envEmpty]

/-- C6: a slot matches a flag spec exactly when its text is dash-dash
followed by the long name (the whole slot is then consumed), or a single dash
followed by a character cluster containing the short character (only that one
character is removed, and the slot is consumed entirely exactly when the
cluster becomes empty); and the clustering scenario: from the store holding
dash-b-f, taking b then f or f then b both report presence and a third take
of either reports absence. -/
theorem c6_flag_matching :
    (∀ (spec : FlagSpec) (v : Str),
        spec.min_index = Option.none → spec.max_index = Option.none →
        (((spec.takeCore envEmpty [some v]).1 = Flag.long spec 0) ↔
            v = '-' :: '-' :: spec.name) ∧
        (v = '-' :: '-' :: spec.name →
            (spec.takeCore envEmpty [some v]).2 = [Option.none]) ∧
        (((spec.takeCore envEmpty [some v]).1 = Flag.short spec 0) ↔
            ∃ c2 cs2 sc, v = '-' :: c2 :: cs2 ∧ c2 ≠ '-' ∧
              spec.short = some sc ∧ sc ∈ c2 :: cs2) ∧
        (∀ c2 cs2 sc cs', v = '-' :: c2 :: cs2 → c2 ≠ '-' → spec.short = some sc →
            removeFirst sc (c2 :: cs2) = some cs' →
            (spec.takeCore envEmpty [some v]).2
              = [if cs' = [] then Option.none else some ('-' :: cs')])) ∧
    ((flagB.take envEmpty bfStore).1 = Flag.short flagB 0 ∧
     (flagF.take envEmpty (flagB.take envEmpty bfStore).2).1 = Flag.short flagF 0 ∧
     (flagB.take envEmpty
        (flagF.take envEmpty (flagB.take envEmpty bfStore).2).2).1 = Flag.none flagB ∧
     (flagF.take envEmpty
        (flagF.take envEmpty (flagB.take envEmpty bfStore).2).2).1 = Flag.none flagF ∧
     (flagF.take envEmpty bfStore).1 = Flag.short flagF 0 ∧
     (flagB.take envEmpty (flagF.take envEmpty bfStore).2).1 = Flag.short flagB 0 ∧
     (flagB.take envEmpty
        (flagB.take envEmpty (flagF.take envEmpty bfStore).2).2).1 = Flag.none flagB ∧
     (flagF.take envEmpty
        (flagB.take envEmpty (flagF.take envEmpty bfStore).2).2).1 = Flag.none flagF) := by
  constructor
  · intro spec v hmin hmax
    have hsingle := flag_takeCore_single spec v hmin hmax
    rcases v with _ | ⟨c, cs⟩
    · exact ⟨by simp [hsingle, flagHead], by simp,
        by simp [hsingle, flagHead], by simp⟩
    by_cases hc : c = '-'
    case neg =>
      refine ⟨by simp [hsingle, flagHead, hc], ?_, by simp [hsingle, flagHead, hc], ?_⟩
      · intro hv
        injection hv with h1 _
        exact absurd h1 hc
      · intro c2' cs2' sc' cs'' hv1 _ _ _
        injection hv1 with h1 _
        exact absurd h1 hc
    subst hc
    rcases cs with _ | ⟨c2, cs2⟩
    · exact ⟨by simp [hsingle, flagHead], by simp,
        by simp [hsingle, flagHead], by simp⟩
    by_cases h2 : c2 = '-'
    · subst h2
      by_cases hname : cs2 = spec.name
      · subst hname
        refine ⟨by simp [hsingle, flagHead], by simp [hsingle, flagHead], ?_, ?_⟩
        · simp [hsingle, flagHead]
        · intro c2' cs2' sc' cs'' hv1 hne _ _
          injection hv1 with h1 h3
          injection h3 with h3 _
          exact absurd h3.symm hne
      · refine ⟨?_, ?_, ?_, ?_⟩
        · simp [hsingle, flagHead, hname]
        · intro hv
          injection hv with _ h3
          injection h3 with _ h3
          exact absurd h3 hname
        · simp [hsingle, flagHead, hname]
        · intro c2' cs2' sc' cs'' hv1 hne _ _
          injection hv1 with h1 h3
          injection h3 with h3 _
          exact absurd h3.symm hne
    · rcases hsh : spec.short with _ | sc
      · refine ⟨by simp [hsingle, flagHead, h2, hsh], ?_,
          by simp [hsingle, flagHead, h2, hsh], ?_⟩
        · intro hv
          injection hv with _ h3
          injection h3 with h3 _
          exact absurd h3 h2
        · intro c2' cs2' sc' cs'' _ _ hsh2 _
          exact Option.noConfusion hsh2
      · rcases hrm : removeFirst sc (c2 :: cs2) with _ | cs'
        · have hmem : ¬ sc ∈ c2 :: cs2 := by
            rw [← removeFirst_isSome sc (c2 :: cs2), hrm]
            simp
          refine ⟨by simp [hsingle, flagHead, h2, hsh, hrm], ?_, ?_, ?_⟩
          · intro hv
            injection hv with _ h3
            injection h3 with h3 _
            exact absurd h3 h2
          · constructor
            · intro h
              rw [hsingle] at h
              simp [flagHead, h2, hsh, hrm] at h
            · rintro ⟨c2', cs2', sc', hv1, hne, hsh2, hmem2⟩
              injection hv1 with _ h3
              injection h3 with h3 h4
              rw [← h3, ← h4, ← Option.some.inj hsh2] at hmem2
              exact absurd hmem2 hmem
          · intro c2' cs2' sc' cs'' hv1 hne hsh2 hrm2
            injection hv1 with _ h3
            injection h3 with h3 h4
            rw [← h3, ← h4, ← Option.some.inj hsh2, hrm] at hrm2
            exact Option.noConfusion hrm2
        · have hmem : sc ∈ c2 :: cs2 := by
            rw [← removeFirst_isSome sc (c2 :: cs2), hrm]
            simp
          refine ⟨by simp [hsingle, flagHead, h2, hsh, hrm], ?_, ?_, ?_⟩
          · intro hv
            injection hv with _ h3
            injection h3 with h3 _
            exact absurd h3 h2
          · constructor
            · intro _
              exact ⟨c2, cs2, sc, rfl, h2, rfl, hmem⟩
            · intro _
              rw [hsingle]
              simp [flagHead, h2, hsh, hrm]
          · intro c2' cs2' sc' cs'' hv1 hne hsh2 hrm2
            injection hv1 with _ h3
            injection h3 with h3 h4
            rw [← h3, ← h4, ← Option.some.inj hsh2, hrm] at hrm2
            rw [hsingle]
            simp [flagHead, h2, hsh, hrm, ← Option.some.inj hrm2]
  · refine ⟨?_, ?_, ?_, ?_, ?_, ?_, ?_, ?_⟩ <;> decide

/-- C6 witness: consuming the short flag b from the cluster dash-b-f removes
only the b character and leaves the slot live as dash-f. -/
theorem c6_witness :
    (flagB.takeCore envEmpty [some ['-', 'b', 'f']]).2
      = [if (['f'] : Str) = [] then Option.none else some ('-' :: ['f'])] :=
  (c6_flag_matching.1 flagB ['-', 'b', 'f'] rfl rfl).2.2.2 'b' ['f'] 'b' ['f'] rfl
    (by decide) rfl (by decide)

/-- C9 counterexample: the implementation's option spec has no min/max index
and its scan is unbounded.  On a store holding dash-dash-foo 1 dash-dash-foo 2
(slot 0 consumed), the code matches and consumes the occurrence at index 1,
even though under the claim a spec scoped to the range from index 3 on would
never examine it; the spec-modelled bounded algorithm indeed matches at
index 3 instead. -/
theorem c9_counterexample :
    (fooOpt.take envEmpty
        (RawArgs.mk
          [Option.none, some ['-', '-', 'f', 'o', 'o'], some ['1'],
           some ['-', '-', 'f', 'o', 'o'], some ['2']] Metadata.DEFAULT [])).1
      = Opt.long fooOpt Metadata.DEFAULT 1 ['1'] ∧
    (fooOpt.take envEmpty
        (RawArgs.mk
          [Option.none, some ['-', '-', 'f', 'o', 'o'], some ['1'],
           some ['-', '-', 'f', 'o', 'o'], some ['2']] Metadata.DEFAULT [])).2.slots
      = [Option.none, Option.none, Option.none,
         some ['-', '-', 'f', 'o', 'o'], some ['2']] ∧
    (OptSpecB.takeCore ⟨fooOpt, some 3, Option.none⟩ envEmpty Metadata.DEFAULT
        [Option.none, some ['-', '-', 'f', 'o', 'o'], some ['1'],
         some ['-', '-', 'f', 'o', 'o'], some ['2']]).1
      = Opt.long fooOpt Metadata.DEFAULT 3 ['2'] := by
  decide

/-- The bounded option scan with no bounds is exactly the implementation's
unbounded scan. -/
theorem optGoB_none_eq (spec : OptSpec) (md : Metadata) :
    ∀ (xs : List Slot) (i : Nat) (pending : Option (Bool × Nat)),
      optGoB ⟨spec, Option.none, Option.none⟩ md i pending xs
        = optGo spec md i pending xs := by
  intro xs
  induction xs with
  | nil => intro i pending; rfl
  | cons slot rest ih =>
    intro i pending
    cases pending with
    | some p => cases slot <;> simp [optGoB, optGo, inRange]
    | none =>
      cases slot with
      | none => simp [optGoB, optGo, inRange, ih]
      | some v =>
        cases hh : optHead spec v <;> simp [optGoB, optGo, inRange, hh, ih]

/-- The unbounded scan skips any number of non-matching live slots, so every
index of the store is a candidate. -/
theorem optGo_skip_xs (n : Nat) :
    ∀ (i : Nat),
      optGo fooOpt Metadata.DEFAULT i Option.none
        (List.replicate n (some ['x']) ++ [some ['-', '-', 'f', 'o', 'o', '=', '1']])
      = (some (Opt.long fooOpt Metadata.DEFAULT (i + n) ['1']),
         List.replicate n (some ['x']) ++ [Option.none]) := by
  induction n with
  | zero =>
    intro i
    have hh : optHead fooOpt ['-', '-', 'f', 'o', 'o', '=', '1'] = OptHead.ret true ['1'] := by
      decide
    simp [optGo, hh, mkLive]
  | succ n ih =>
    intro i
    have hh : optHead fooOpt ['x'] = OptHead.skip := by decide
    have e1 : List.replicate (n + 1) (some ['x'] : Slot)
          ++ [some ['-', '-', 'f', 'o', 'o', '=', '1']]
        = some ['x'] :: (List.replicate n (some ['x'])
          ++ [some ['-', '-', 'f', 'o', 'o', '=', '1']]) := by
      simp [List.replicate_succ]
    rw [e1]
    simp only [optGo, hh]
    rw [ih (i + 1)]
    have e2 : i + 1 + n = i + (n + 1) := by omega
    simp [e2, List.replicate_succ]

/-- C9 amended: option extraction is not scoped by index bounds: the option
spec carries no min/max index, the take scan coincides with the spec-modelled
bounded scan instantiated with the whole range, and a matching token is found
at any index however large (after any number of skipped live slots). -/
theorem c9_amended_opt_unbounded :
    (∀ (spec : OptSpec) (envf : Str → Option Str) (md : Metadata) (slots : List Slot),
        spec.takeCore envf md slots
          = OptSpecB.takeCore ⟨spec, Option.none, Option.none⟩ envf md slots) ∧
    (∀ n : Nat,
        (fooOpt.takeCore envEmpty Metadata.DEFAULT
            (List.replicate n (some ['x'])
              ++ [some ['-', '-', 'f', 'o', 'o', '=', '1']])).1
          = Opt.long fooOpt Metadata.DEFAULT n ['1']) := by
  constructor
  · intro spec envf md slots
    simp [OptSpec.takeCore, OptSpecB.takeCore, optGoB_none_eq]
  · intro n
    have h := optGo_skip_xs n 0
    have hm : Metadata.DEFAULT.help_mode = false := rfl
    simp [OptSpec.takeCore, hm, h]

/-- Leaving a slot unchanged is a slot evolution. -/
theorem slotStep_refl (s : Slot) : slotStep s s := Or.inl rfl

/-- A store evolves to itself. -/
theorem forall2_slotStep_refl : ∀ (l : List Slot), List.Forall₂ slotStep l l := by
  intro l
  induction l with
  | nil => exact List.Forall₂.nil
  | cons s t ih => exact List.Forall₂.cons (slotStep_refl s) ih

/-- A flag match consumes the slot or strictly shrinks its cluster. -/
theorem flagHead_shrinks (spec : FlagSpec) :
    ∀ (v : Str) (p : Bool × Slot), flagHead spec v = some p →
      p.2 = Option.none ∨ ∃ v', p.2 = some v' ∧ v'.length < v.length := by
  intro v p h
  rcases v with _ | ⟨c, cs⟩
  · simp [flagHead] at h
  by_cases hc : c = '-'
  · subst hc
    rcases cs with _ | ⟨c2, cs2⟩
    · simp [flagHead] at h
    by_cases h2 : c2 = '-'
    · subst h2
      by_cases hname : cs2 = spec.name
      · simp [flagHead, hname] at h
        rw [← h]
        exact Or.inl rfl
      · simp [flagHead, hname] at h
    · rcases hsh : spec.short with _ | sc
      · simp [flagHead, h2, hsh] at h
      · rcases hrm : removeFirst sc (c2 :: cs2) with _ | cs'
        · simp [flagHead, h2, hsh, hrm] at h
        · simp [flagHead, h2, hsh, hrm] at h
          have hlen := removeFirst_length sc (c2 :: cs2) cs' hrm
          rw [← h]
          by_cases hz : cs' = []
          · simp [hz]
          · right
            refine ⟨'-' :: cs', by simp [hz], ?_⟩
            simp [List.length_cons] at hlen ⊢
            omega
  · simp [flagHead, hc] at h

/-- The flag scan only consumes or shrinks slots in place. -/
theorem flagGo_forall2 (spec : FlagSpec) :
    ∀ (xs : List Slot) (i : Nat), List.Forall₂ slotStep xs (flagGo spec i xs).2 := by
  intro xs
  induction xs with
  | nil => intro i; exact List.Forall₂.nil
  | cons slot rest ih =>
    intro i
    by_cases hr : inRange spec.min_index spec.max_index i = true
    · cases slot with
      | none =>
        simp only [flagGo, hr, if_true]
        exact List.Forall₂.cons (slotStep_refl _) (ih (i + 1))
      | some v =>
        rcases hh : flagHead spec v with _ | p
        · simp only [flagGo, hr, if_true, hh]
          exact List.Forall₂.cons (slotStep_refl _) (ih (i + 1))
        · simp only [flagGo, hr, if_true, hh]
          exact List.Forall₂.cons
            (Or.inr ⟨v, rfl, flagHead_shrinks spec v p hh⟩)
            (forall2_slotStep_refl rest)
    · simp only [flagGo, hr, if_false]
      exact List.Forall₂.cons (slotStep_refl _) (ih (i + 1))

/-- The positional scan only consumes slots in place. -/
theorem argGo_forall2 (spec : ArgSpec) (md : Metadata) :
    ∀ (xs : List Slot) (i : Nat), List.Forall₂ slotStep xs (argGo spec md i xs).2 := by
  intro xs
  induction xs with
  | nil => intro i; exact List.Forall₂.nil
  | cons slot rest ih =>
    intro i
    by_cases hr : inRange spec.min_index spec.max_index i = true
    · cases slot with
      | none =>
        simp only [argGo, hr, if_true]
        exact List.Forall₂.cons (slotStep_refl _) (ih (i + 1))
      | some v =>
        simp only [argGo, hr, if_true]
        exact List.Forall₂.cons (Or.inr ⟨v, rfl, Or.inl rfl⟩)
          (forall2_slotStep_refl rest)
    · simp only [argGo, hr, if_false]
      exact List.Forall₂.cons (slotStep_refl _) (ih (i + 1))

/-- The subcommand scan only consumes slots in place. -/
theorem cmdGo_forall2 (spec : CmdSpec) :
    ∀ (xs : List Slot) (i : Nat), List.Forall₂ slotStep xs (cmdGo spec i xs).2 := by
  intro xs
  induction xs with
  | nil => intro i; exact List.Forall₂.nil
  | cons slot rest ih =>
    intro i
    cases slot with
    | none =>
      simp only [cmdGo]
      exact List.Forall₂.cons (slotStep_refl _) (ih (i + 1))
    | some v =>
      by_cases hv : v = spec.name
      · simp only [cmdGo, hv, if_true]
        exact List.Forall₂.cons (Or.inr ⟨spec.name, rfl, Or.inl rfl⟩)
          (forall2_slotStep_refl rest)
      · simp only [cmdGo, hv, if_false]
        exact List.Forall₂.cons (slotStep_refl _) (forall2_slotStep_refl rest)

/-- The option scan only consumes slots in place. -/
theorem optGo_forall2 (spec : OptSpec) (md : Metadata) :
    ∀ (xs : List Slot) (i : Nat) (pending : Option (Bool × Nat)),
      List.Forall₂ slotStep xs (optGo spec md i pending xs).2 := by
  intro xs
  induction xs with
  | nil => intro i pending; cases pending <;> exact List.Forall₂.nil
  | cons slot rest ih =>
    intro i pending
    cases pending with
    | some p =>
      cases slot with
      | none =>
        simp only [optGo]
        exact List.Forall₂.cons (slotStep_refl _) (forall2_slotStep_refl rest)
      | some v =>
        simp only [optGo]
        exact List.Forall₂.cons (Or.inr ⟨v, rfl, Or.inl rfl⟩)
          (forall2_slotStep_refl rest)
    | none =>
      cases slot with
      | none =>
        simp only [optGo]
        exact List.Forall₂.cons (slotStep_refl _) (ih (i + 1) Option.none)
      | some v =>
        rcases hh : optHead spec v with _ | ⟨isLong, val⟩ | isLong
        · simp only [optGo, hh]
          exact List.Forall₂.cons (slotStep_refl _) (ih (i + 1) Option.none)
        · simp only [optGo, hh]
          exact List.Forall₂.cons (Or.inr ⟨v, rfl, Or.inl rfl⟩)
            (forall2_slotStep_refl rest)
        · simp only [optGo, hh]
          exact List.Forall₂.cons (Or.inr ⟨v, rfl, Or.inl rfl⟩)
            (ih (i + 1) (some (isLong, i)))

/-- Flag take evolves the store pointwise in place. -/
theorem flag_take_forall2 (spec : FlagSpec) (envf : Str → Option Str) (st : RawArgs) :
    List.Forall₂ slotStep st.slots (spec.take envf st).2.slots := by
  have h := flagGo_forall2 spec st.slots 0
  rcases hgo : flagGo spec 0 st.slots with ⟨o, ys⟩
  rw [hgo] at h
  cases o <;> simp [FlagSpec.take, FlagSpec.takeCore, hgo] <;> exact h

/-- Positional take evolves the store pointwise in place. -/
theorem arg_take_forall2 (spec : ArgSpec) (st : RawArgs) :
    List.Forall₂ slotStep st.slots (spec.take st).2.slots := by
  by_cases hm : st.metadata.help_mode = true
  · simp [ArgSpec.take, ArgSpec.takeCore, hm]
    exact fun x _ => slotStep_refl x
  · have h := argGo_forall2 spec st.metadata st.slots 0
    rcases hgo : argGo spec st.metadata 0 st.slots with ⟨o, ys⟩
    rw [hgo] at h
    cases o <;> simp [ArgSpec.take, ArgSpec.takeCore, hm, hgo] <;> exact h

/-- Option take evolves the store pointwise in place. -/
theorem opt_take_forall2 (spec : OptSpec) (envf : Str → Option Str) (st : RawArgs) :
    List.Forall₂ slotStep st.slots (spec.take envf st).2.slots := by
  by_cases hm : st.metadata.help_mode = true
  · simp [OptSpec.take, OptSpec.takeCore, hm]
    exact fun x _ => slotStep_refl x
  · have h := optGo_forall2 spec st.metadata st.slots 0 Option.none
    rcases hgo : optGo spec st.metadata 0 Option.none st.slots with ⟨o, ys⟩
    rw [hgo] at h
    cases o <;> simp [OptSpec.take, OptSpec.takeCore, hm, hgo] <;> exact h

/-- Subcommand take evolves the store pointwise in place. -/
theorem cmd_take_forall2 (spec : CmdSpec) (st : RawArgs) :
    List.Forall₂ slotStep st.slots (spec.take st).2.slots := by
  have h := cmdGo_forall2 spec st.slots 0
  rcases hgo : cmdGo spec 0 st.slots with ⟨o, ys⟩
  rw [hgo] at h
  cases o <;> simp [CmdSpec.take, CmdSpec.takeCore, hgo] <;> exact h

/-- C4: index stability: every take call of every spec kind preserves the
length of the store and evolves each slot in place (unchanged, consumed, or
shrunk at its own index), so consuming a slot never changes the index of any
other slot and min/max bounds computed from earlier results stay valid. -/
theorem c4_index_stability :
    (∀ (spec : ArgSpec) (st : RawArgs),
        ((spec.take st).2.slots).length = st.slots.length ∧
        List.Forall₂ slotStep st.slots (spec.take st).2.slots) ∧
    (∀ (spec : FlagSpec) (envf : Str → Option Str) (st : RawArgs),
        ((spec.take envf st).2.slots).length = st.slots.length ∧
        List.Forall₂ slotStep st.slots (spec.take envf st).2.slots) ∧
    (∀ (spec : OptSpec) (envf : Str → Option Str) (st : RawArgs),
        ((spec.take envf st).2.slots).length = st.slots.length ∧
        List.Forall₂ slotStep st.slots (spec.take envf st).2.slots) ∧
    (∀ (spec : CmdSpec) (st : RawArgs),
        ((spec.take st).2.slots).length = st.slots.length ∧
        List.Forall₂ slotStep st.slots (spec.take st).2.slots) :=
  ⟨fun spec st => ⟨(arg_take_forall2 spec st).length_eq.symm, arg_take_forall2 spec st⟩,
   fun spec envf st =>
     ⟨(flag_take_forall2 spec envf st).length_eq.symm, flag_take_forall2 spec envf st⟩,
   fun spec envf st =>
     ⟨(opt_take_forall2 spec envf st).length_eq.symm, opt_take_forall2 spec envf st⟩,
   fun spec st => ⟨(cmd_take_forall2 spec st).length_eq.symm, cmd_take_forall2 spec st⟩⟩

/-- In-place evolution never revives a consumed slot. -/
theorem forall2_slotStep_none :
    ∀ {xs ys : List Slot}, List.Forall₂ slotStep xs ys →
      ∀ k, xs.get? k = some Option.none → ys.get? k = some Option.none := by
  intro xs ys h
  induction h with
  | nil => intro k hk; simp at hk
  | @cons a b l1 l2 hh ht ih =>
    intro k hk
    cases k with
    | zero =>
      simp only [List.get?_cons_zero] at hk ⊢
      have ha : a = Option.none := Option.some.inj hk
      rcases hh with h1 | ⟨v, hv, _⟩
      · rw [h1, ha]
      · rw [ha] at hv; exact Option.noConfusion hv
    | succ k =>
      simp only [List.get?_cons_succ] at hk ⊢
      exact ih k hk

/-- A positional match lies at or after the scan start index. -/
theorem argGo_ge (spec : ArgSpec) (md : Metadata) :
    ∀ (xs : List Slot) (i : Nat) (a : Arg),
      (argGo spec md i xs).1 = some a → ∀ p, a.index = some p → i ≤ p := by
  intro xs
  induction xs with
  | nil => intro i a h; simp [argGo] at h
  | cons slot rest ih =>
    intro i a h p hp
    by_cases hr : inRange spec.min_index spec.max_index i = true
    · cases slot with
      | some v =>
        simp only [argGo, hr, if_true] at h
        rw [← Option.some.inj h] at hp
        simp [Arg.index] at hp
        omega
      | none =>
        simp only [argGo, hr, if_true] at h
        have := ih (i + 1) a h p hp
        omega
    · simp only [argGo, hr, if_false] at h
      have := ih (i + 1) a h p hp
      omega

/-- Two successive positional scans match at strictly increasing indices. -/
theorem argGo_two (spec : ArgSpec) (md : Metadata) :
    ∀ (xs : List Slot) (i : Nat) (a1 a2 : Arg) (p q : Nat),
      (argGo spec md i xs).1 = some a1 → a1.index = some p →
      (argGo spec md i ((argGo spec md i xs).2)).1 = some a2 → a2.index = some q →
      p < q := by
  intro xs
  induction xs with
  | nil => intro i a1 a2 p q h1; simp [argGo] at h1
  | cons slot rest ih =>
    intro i a1 a2 p q h1 hp h2 hq
    by_cases hr : inRange spec.min_index spec.max_index i = true
    · cases slot with
      | some v =>
        simp only [argGo, hr, if_true] at h1 h2
        rw [← Option.some.inj h1] at hp
        simp [Arg.index] at hp
        have hge := argGo_ge spec md rest (i + 1) a2 h2 q hq
        omega
      | none =>
        simp only [argGo, hr, if_true] at h1 h2
        exact ih (i + 1) a1 a2 p q h1 hp h2 hq
    · simp only [argGo, hr, if_false] at h1 h2
      exact ih (i + 1) a1 a2 p q h1 hp h2 hq

/-- A subcommand match lies at or after the scan start index. -/
theorem cmdGo_ge (spec : CmdSpec) :
    ∀ (xs : List Slot) (i : Nat) (c : Cmd),
      (cmdGo spec i xs).1 = some c → ∀ p, c.index = some p → i ≤ p := by
  intro xs
  induction xs with
  | nil => intro i c h; simp [cmdGo] at h
  | cons slot rest ih =>
    intro i c h p hp
    cases slot with
    | none =>
      simp only [cmdGo] at h
      have := ih (i + 1) c h p hp
      omega
    | some v =>
      by_cases hv : v = spec.name
      · simp only [cmdGo, hv, if_true] at h
        rw [← Option.some.inj h] at hp
        simp [Cmd.index] at hp
        omega
      · simp only [cmdGo, hv, if_false] at h
        exact Option.noConfusion h

/-- Two successive subcommand scans match at strictly increasing indices. -/
theorem cmdGo_two (spec : CmdSpec) :
    ∀ (xs : List Slot) (i : Nat) (c1 c2 : Cmd) (p q : Nat),
      (cmdGo spec i xs).1 = some c1 → c1.index = some p →
      (cmdGo spec i ((cmdGo spec i xs).2)).1 = some c2 → c2.index = some q →
      p < q := by
  intro xs
  induction xs with
  | nil => intro i c1 c2 p q h1; simp [cmdGo] at h1
  | cons slot rest ih =>
    intro i c1 c2 p q h1 hp h2 hq
    cases slot with
    | none =>
      simp only [cmdGo] at h1 h2
      exact ih (i + 1) c1 c2 p q h1 hp h2 hq
    | some v =>
      by_cases hv : v = spec.name
      · simp only [cmdGo, hv, if_true] at h1 h2
        rw [← Option.some.inj h1] at hp
        simp [Cmd.index] at hp
        have hge := cmdGo_ge spec rest (i + 1) c2 h2 q hq
        omega
      · simp only [cmdGo, hv, if_false] at h1
        exact Option.noConfusion h1

/-- A flag match lies at or after the scan start index. -/
theorem flagGo_ge (spec : FlagSpec) :
    ∀ (xs : List Slot) (i : Nat) (f : Flag),
      (flagGo spec i xs).1 = some f → ∀ p, f.index = some p → i ≤ p := by
  intro xs
  induction xs with
  | nil => intro i f h; simp [flagGo] at h
  | cons slot rest ih =>
    intro i f h p hp
    by_cases hr : inRange spec.min_index spec.max_index i = true
    · cases slot with
      | none =>
        simp only [flagGo, hr, if_true] at h
        have := ih (i + 1) f h p hp
        omega
      | some v =>
        rcases hh : flagHead spec v with _ | b
        · simp only [flagGo, hr, if_true, hh] at h
          have := ih (i + 1) f h p hp
          omega
        · simp only [flagGo, hr, if_true, hh] at h
          rw [← Option.some.inj h] at hp
          cases hb : b.1 <;> simp [hb, Flag.index] at hp <;> omega
    · simp only [flagGo, hr, if_false] at h
      have := ih (i + 1) f h p hp
      omega

/-- Two successive flag scans match at strictly increasing indices, except
that a short-flag cluster may be revisited at the same index after strictly
shrinking, consuming a different character each time. -/
theorem flagGo_two (spec : FlagSpec) :
    ∀ (xs : List Slot) (i : Nat) (f1 f2 : Flag) (p q : Nat),
      (flagGo spec i xs).1 = some f1 → f1.index = some p →
      (flagGo spec i ((flagGo spec i xs).2)).1 = some f2 → f2.index = some q →
      p < q ∨ (p = q ∧
        ∃ v0 v1, xs.get? (p - i) = some (some v0) ∧
          ((flagGo spec i xs).2).get? (p - i) = some (some v1) ∧
          v1.length < v0.length ∧
          (((flagGo spec i ((flagGo spec i xs).2)).2).get? (p - i) = some Option.none ∨
           ∃ v2, ((flagGo spec i ((flagGo spec i xs).2)).2).get? (p - i)
                   = some (some v2) ∧ v2.length < v1.length)) := by
  intro xs
  induction xs with
  | nil => intro i f1 f2 p q h1; simp [flagGo] at h1
  | cons slot rest ih =>
    intro i f1 f2 p q h1 hp h2 hq
    by_cases hr : inRange spec.min_index spec.max_index i = true
    case neg =>
      simp only [flagGo, hr, if_false] at h1 h2 ⊢
      have hge := flagGo_ge spec rest (i + 1) f1 h1 p hp
      have hsub : p - i = (p - (i + 1)) + 1 := by omega
      rcases ih (i + 1) f1 f2 p q h1 hp h2 hq with h | ⟨hpq, v0, v1, g1, g2, hlen, g3⟩
      · exact Or.inl h
      · refine Or.inr ⟨hpq, v0, v1, ?_, ?_, hlen, ?_⟩
        · rw [hsub]; simpa using g1
        · rw [hsub]; simpa using g2
        · rw [hsub]
          rcases g3 with g3 | ⟨v2, g3, hl2⟩
          · exact Or.inl (by simpa using g3)
          · exact Or.inr ⟨v2, by simpa using g3, hl2⟩
    case pos =>
      cases slot with
      | none =>
        simp only [flagGo, hr, if_true] at h1 h2 ⊢
        have hge := flagGo_ge spec rest (i + 1) f1 h1 p hp
        have hsub : p - i = (p - (i + 1)) + 1 := by omega
        rcases ih (i + 1) f1 f2 p q h1 hp h2 hq with h | ⟨hpq, v0, v1, g1, g2, hlen, g3⟩
        · exact Or.inl h
        · refine Or.inr ⟨hpq, v0, v1, ?_, ?_, hlen, ?_⟩
          · rw [hsub]; simpa using g1
          · rw [hsub]; simpa using g2
          · rw [hsub]
            rcases g3 with g3 | ⟨v2, g3, hl2⟩
            · exact Or.inl (by simpa using g3)
            · exact Or.inr ⟨v2, by simpa using g3, hl2⟩
      | some v =>
        rcases hh : flagHead spec v with _ | b
        · simp only [flagGo, hr, if_true, hh] at h1 h2 ⊢
          have hge := flagGo_ge spec rest (i + 1) f1 h1 p hp
          have hsub : p - i = (p - (i + 1)) + 1 := by omega
          rcases ih (i + 1) f1 f2 p q h1 hp h2 hq with h | ⟨hpq, v0, v1, g1, g2, hlen, g3⟩
          · exact Or.inl h
          · refine Or.inr ⟨hpq, v0, v1, ?_, ?_, hlen, ?_⟩
            · rw [hsub]; simpa using g1
            · rw [hsub]; simpa using g2
            · rw [hsub]
              rcases g3 with g3 | ⟨v2, g3, hl2⟩
              · exact Or.inl (by simpa using g3)
              · exact Or.inr ⟨v2, by simpa using g3, hl2⟩
        · -- the first take matched at the head, so p = i
          have hp_eq : p = i := by
            simp only [flagGo, hr, if_true, hh] at h1
            rw [← Option.some.inj h1] at hp
            cases hb : b.1 <;> simp [hb, Flag.index] at hp <;> omega
          subst hp_eq
          have hshr := flagHead_shrinks spec v b hh
          have hys : (flagGo spec p (some v :: rest)).2 = b.2 :: rest := by
            simp only [flagGo, hr, if_true, hh]
          rcases hb2 : b.2 with _ | w
          · -- slot fully consumed: the second match is strictly later
            rw [hys, hb2] at h2
            simp only [flagGo, hr, if_true] at h2
            have hge := flagGo_ge spec rest (p + 1) f2 h2 q hq
            omega
          · -- cluster shrank in place: the second scan revisits index p
            rw [hys, hb2] at h2
            rcases hh2 : flagHead spec w with _ | b2
            · simp only [flagGo, hr, if_true, hh2] at h2
              have hge := flagGo_ge spec rest (p + 1) f2 h2 q hq
              omega
            · have hq_eq : q = p := by
                simp only [flagGo, hr, if_true, hh2] at h2
                rw [← Option.some.inj h2] at hq
                cases hb' : b2.1 <;> simp [hb', Flag.index] at hq <;> omega
              subst hq_eq
              refine Or.inr ⟨rfl, ?_⟩
              have hw : ∃ v1, b.2 = some v1 ∧ v1.length < v.length := by
                rcases hshr with h' | h'
                · rw [hb2] at h'; exact Option.noConfusion h'
                · exact h'
              rcases hw with ⟨v1, hv1, hl1⟩
              rw [hb2] at hv1
              have hv1w : v1 = w := (Option.some.inj hv1).symm
              subst hv1w
              refine ⟨v, v1, by simp, ?_, hl1, ?_⟩
              · rw [hys, hb2]; simp
              · have hzs : (flagGo spec q (some v1 :: rest)).2 = b2.2 :: rest := by
                  simp only [flagGo, hr, if_true, hh2]
                rw [hys, hb2, hzs]
                have hshr2 := flagHead_shrinks spec v1 b2 hh2
                rcases hshr2 with h' | ⟨v2, hv2, hl2⟩
                · exact Or.inl (by rw [h']; simp)
                · exact Or.inr ⟨v2, by rw [hv2]; simp, hl2⟩

/-- A live option result reports the index it was built with. -/
theorem mkLive_index (spec : OptSpec) (md : Metadata) (b : Bool) (idx : Nat) (v : Str) :
    (mkLive spec md b idx v).index = some idx := by
  cases b <;> simp [mkLive, Opt.index]

/-- A live result produced out of the pending state carries the pending
name-slot index. -/
theorem optGo_pending_index (spec : OptSpec) (md : Metadata) :
    ∀ (xs : List Slot) (i : Nat) (b : Bool) (pidx : Nat) (o : Opt),
      (optGo spec md i (some (b, pidx)) xs).1 = some o →
      ∀ p, o.index = some p → p = pidx := by
  intro xs i b pidx o h p hp
  cases xs with
  | nil =>
    simp only [optGo] at h
    rw [← Option.some.inj h] at hp
    simp [Opt.index] at hp
  | cons slot rest =>
    cases slot with
    | none =>
      simp only [optGo] at h
      rw [← Option.some.inj h] at hp
      simp [Opt.index] at hp
    | some v =>
      simp only [optGo] at h
      rw [← Option.some.inj h] at hp
      rw [mkLive_index] at hp
      exact (Option.some.inj hp).symm

/-- An option match lies at or after the scan start index. -/
theorem optGo_ge (spec : OptSpec) (md : Metadata) :
    ∀ (xs : List Slot) (i : Nat) (o : Opt),
      (optGo spec md i Option.none xs).1 = some o → ∀ p, o.index = some p → i ≤ p := by
  intro xs
  induction xs with
  | nil => intro i o h; simp [optGo] at h
  | cons slot rest ih =>
    intro i o h p hp
    cases slot with
    | none =>
      simp only [optGo] at h
      have := ih (i + 1) o h p hp
      omega
    | some v =>
      rcases hh : optHead spec v with _ | ⟨isLong, val⟩ | isLong
      · simp only [optGo, hh] at h
        have := ih (i + 1) o h p hp
        omega
      · simp only [optGo, hh] at h
        rw [← Option.some.inj h] at hp
        rw [mkLive_index] at hp
        have : p = i := (Option.some.inj hp).symm
        omega
      · simp only [optGo, hh] at h
        have := optGo_pending_index spec md rest (i + 1) isLong i o h p hp
        omega

/-- Two successive option scans match at strictly increasing name indices. -/
theorem optGo_two (spec : OptSpec) (md : Metadata) :
    ∀ (xs : List Slot) (i : Nat) (o1 o2 : Opt) (p q : Nat),
      (optGo spec md i Option.none xs).1 = some o1 → o1.index = some p →
      (optGo spec md i Option.none ((optGo spec md i Option.none xs).2)).1 = some o2 →
      o2.index = some q → p < q := by
  intro xs
  induction xs with
  | nil => intro i o1 o2 p q h1; simp [optGo] at h1
  | cons slot rest ih =>
    intro i o1 o2 p q h1 hp h2 hq
    cases slot with
    | none =>
      simp only [optGo] at h1 h2
      exact ih (i + 1) o1 o2 p q h1 hp h2 hq
    | some v =>
      rcases hh : optHead spec v with _ | ⟨isLong, val⟩ | isLong
      · simp only [optGo, hh] at h1 h2
        exact ih (i + 1) o1 o2 p q h1 hp h2 hq
      · simp only [optGo, hh] at h1 h2
        rw [← Option.some.inj h1] at hp
        rw [mkLive_index] at hp
        have hpi : p = i := (Option.some.inj hp).symm
        have hge := optGo_ge spec md rest (i + 1) o2 h2 q hq
        omega
      · simp only [optGo, hh] at h1 h2
        have hpi : p = i := optGo_pending_index spec md rest (i + 1) isLong i o1 h1 p hp
        cases rest with
        | nil =>
          simp only [optGo] at h1
          rw [← Option.some.inj h1] at hp
          simp [Opt.index] at hp
        | cons s r2 =>
          cases s with
          | none =>
            simp only [optGo] at h1
            rw [← Option.some.inj h1] at hp
            simp [Opt.index] at hp
          | some v2 =>
            simp only [optGo] at h1 h2
            have hge := optGo_ge spec md r2 (i + 1 + 1) o2 h2 q hq
            omega

/-- An index-bearing positional take result came from the scan, and take
returns the scan's store. -/
theorem arg_take_live (spec : ArgSpec) (st : RawArgs) (p : Nat)
    (h : ((spec.take st).1).index = some p) :
    (argGo spec st.metadata 0 st.slots).1 = some (spec.take st).1 ∧
    (spec.take st).2.slots = (argGo spec st.metadata 0 st.slots).2 := by
  by_cases hm : st.metadata.help_mode = true
  · exfalso
    by_cases hd : spec.default.isSome <;> by_cases he : spec.example_.isSome <;>
      simp [ArgSpec.take, ArgSpec.takeCore, hm, hd, he, Arg.index] at h
  · rcases hgo : argGo spec st.metadata 0 st.slots with ⟨o, ys⟩
    cases o with
    | none =>
      exfalso
      by_cases hd : spec.default.isSome <;>
        simp [ArgSpec.take, ArgSpec.takeCore, hm, hgo, hd, Arg.index] at h
    | some a =>
      constructor <;> simp [ArgSpec.take, ArgSpec.takeCore, hm, hgo]

/-- An index-bearing subcommand take result came from the scan, and take
returns the scan's store. -/
theorem cmd_take_live (spec : CmdSpec) (st : RawArgs) (p : Nat)
    (h : ((spec.take st).1).index = some p) :
    (cmdGo spec 0 st.slots).1 = some (spec.take st).1 ∧
    (spec.take st).2.slots = (cmdGo spec 0 st.slots).2 := by
  rcases hgo : cmdGo spec 0 st.slots with ⟨o, ys⟩
  cases o with
  | none =>
    exfalso
    simp [CmdSpec.take, CmdSpec.takeCore, hgo, Cmd.index] at h
  | some c =>
    constructor <;> simp [CmdSpec.take, CmdSpec.takeCore, hgo]

/-- An index-bearing flag take result came from the scan, and take returns
the scan's store. -/
theorem flag_take_live (spec : FlagSpec) (envf : Str → Option Str) (st : RawArgs)
    (p : Nat) (h : ((spec.take envf st).1).index = some p) :
    (flagGo spec 0 st.slots).1 = some (spec.take envf st).1 ∧
    (spec.take envf st).2.slots = (flagGo spec 0 st.slots).2 := by
  rcases hgo : flagGo spec 0 st.slots with ⟨o, ys⟩
  cases o with
  | none =>
    exfalso
    rcases he : spec.env with _ | nm
    · simp [FlagSpec.take, FlagSpec.takeCore, hgo, he, Flag.index] at h
    · rcases hev : envf nm with _ | w
      · simp [FlagSpec.take, FlagSpec.takeCore, hgo, he, hev, Flag.index] at h
      · by_cases hw : w = []
        · simp [FlagSpec.take, FlagSpec.takeCore, hgo, he, hev, hw, Flag.index] at h
        · simp [FlagSpec.take, FlagSpec.takeCore, hgo, he, hev, hw, Flag.index] at h
  | some f =>
    constructor <;> simp [FlagSpec.take, FlagSpec.takeCore, hgo]

/-- An index-bearing option take result came from the scan, and take returns
the scan's store. -/
theorem opt_take_live (spec : OptSpec) (envf : Str → Option Str) (st : RawArgs)
    (p : Nat) (h : ((spec.take envf st).1).index = some p) :
    (optGo spec st.metadata 0 Option.none st.slots).1 = some (spec.take envf st).1 ∧
    (spec.take envf st).2.slots = (optGo spec st.metadata 0 Option.none st.slots).2 := by
  by_cases hm : st.metadata.help_mode = true
  · exfalso
    by_cases hd : spec.default.isSome <;> by_cases he : spec.example_.isSome <;>
      simp [OptSpec.take, OptSpec.takeCore, hm, hd, he, Opt.index] at h
  · rcases hgo : optGo spec st.metadata 0 Option.none st.slots with ⟨o, ys⟩
    cases o with
    | none =>
      exfalso
      rcases he : spec.env with _ | nm
      · by_cases hd : spec.default.isSome <;>
          simp [OptSpec.take, OptSpec.takeCore, hm, hgo, he, hd, optFallback,
            Opt.index] at h
      · rcases hev : envf nm with _ | w
        · by_cases hd : spec.default.isSome <;>
            simp [OptSpec.take, OptSpec.takeCore, hm, hgo, he, hev, hd, optFallback,
              Opt.index] at h
        · by_cases hw : w = []
          · by_cases hd : spec.default.isSome <;>
              simp [OptSpec.take, OptSpec.takeCore, hm, hgo, he, hev, hw, hd,
                optFallback, Opt.index] at h
          · simp [OptSpec.take, OptSpec.takeCore, hm, hgo, he, hev, hw,
              Opt.index] at h
    | some o1 =>
      constructor <;> simp [OptSpec.take, OptSpec.takeCore, hm, hgo]

/-- C3: consumption monotonicity: a slot once consumed is never re-observable
by any later extraction of any spec kind, and calling the same spec's take
twice in succession never returns a live-token match for the same token
twice: the second live match is at a strictly later index, except that a
short-flag cluster slot may match again at the same index only after the
first call strictly shrank it (a different character consumed), the second
call consuming or shrinking it further. -/
theorem c3_consumption_monotonicity :
    (∀ (spec : ArgSpec) (st : RawArgs) (k : Nat),
        st.slots.get? k = some Option.none →
        ((spec.take st).2.slots).get? k = some Option.none) ∧
    (∀ (spec : FlagSpec) (envf : Str → Option Str) (st : RawArgs) (k : Nat),
        st.slots.get? k = some Option.none →
        ((spec.take envf st).2.slots).get? k = some Option.none) ∧
    (∀ (spec : OptSpec) (envf : Str → Option Str) (st : RawArgs) (k : Nat),
        st.slots.get? k = some Option.none →
        ((spec.take envf st).2.slots).get? k = some Option.none) ∧
    (∀ (spec : CmdSpec) (st : RawArgs) (k : Nat),
        st.slots.get? k = some Option.none →
        ((spec.take st).2.slots).get? k = some Option.none) ∧
    (∀ (spec : ArgSpec) (st : RawArgs) (p q : Nat),
        ((spec.take st).1).index = some p →
        ((spec.take (spec.take st).2).1).index = some q → p < q) ∧
    (∀ (spec : CmdSpec) (st : RawArgs) (p q : Nat),
        ((spec.take st).1).index = some p →
        ((spec.take (spec.take st).2).1).index = some q → p < q) ∧
    (∀ (spec : OptSpec) (envf : Str → Option Str) (st : RawArgs) (p q : Nat),
        ((spec.take envf st).1).index = some p →
        ((spec.take envf (spec.take envf st).2).1).index = some q → p < q) ∧
    (∀ (spec : FlagSpec) (envf : Str → Option Str) (st : RawArgs) (p q : Nat),
        ((spec.take envf st).1).index = some p →
        ((spec.take envf (spec.take envf st).2).1).index = some q →
        p < q ∨ (p = q ∧
          ∃ v0 v1, st.slots.get? p = some (some v0) ∧
            ((spec.take envf st).2.slots).get? p = some (some v1) ∧
            v1.length < v0.length ∧
            (((spec.take envf (spec.take envf st).2).2.slots).get? p
                = some Option.none ∨
             ∃ v2, ((spec.take envf (spec.take envf st).2).2.slots).get? p
                = some (some v2) ∧ v2.length < v1.length))) := by
  refine ⟨?_, ?_, ?_, ?_, ?_, ?_, ?_, ?_⟩
  · intro spec st k hk
    exact forall2_slotStep_none (arg_take_forall2 spec st) k hk
  · intro spec envf st k hk
    exact forall2_slotStep_none (flag_take_forall2 spec envf st) k hk
  · intro spec envf st k hk
    exact forall2_slotStep_none (opt_take_forall2 spec envf st) k hk
  · intro spec st k hk
    exact forall2_slotStep_none (cmd_take_forall2 spec st) k hk
  · intro spec st p q h1 h2
    have l1 := arg_take_live spec st p h1
    have l2 := arg_take_live spec (spec.take st).2 q h2
    have hmd : (spec.take st).2.metadata = st.metadata := rfl
    rw [hmd, l1.2] at l2
    exact argGo_two spec st.metadata st.slots 0 (spec.take st).1
      (spec.take (spec.take st).2).1 p q l1.1 h1 l2.1 h2
  · intro spec st p q h1 h2
    have l1 := cmd_take_live spec st p h1
    have l2 := cmd_take_live spec (spec.take st).2 q h2
    rw [l1.2] at l2
    exact cmdGo_two spec st.slots 0 (spec.take st).1
      (spec.take (spec.take st).2).1 p q l1.1 h1 l2.1 h2
  · intro spec envf st p q h1 h2
    have l1 := opt_take_live spec envf st p h1
    have l2 := opt_take_live spec envf (spec.take envf st).2 q h2
    have hmd : (spec.take envf st).2.metadata = st.metadata := rfl
    rw [hmd, l1.2] at l2
    exact optGo_two spec st.metadata st.slots 0 (spec.take envf st).1
      (spec.take envf (spec.take envf st).2).1 p q l1.1 h1 l2.1 h2
  · intro spec envf st p q h1 h2
    have l1 := flag_take_live spec envf st p h1
    have l2 := flag_take_live spec envf (spec.take envf st).2 q h2
    rw [l1.2] at l2
    have hmain := flagGo_two spec st.slots 0 (spec.take envf st).1
      (spec.take envf (spec.take envf st).2).1 p q l1.1 h1 l2.1 h2
    rw [l1.2, l2.2]
    simpa using hmain

/-- C3 witness: two positional takes on a store with two live tokens match at
index 0 and then strictly later at index 1. -/
theorem c3_witness :
    ((ArgSpec.new ['A']).take
        (RawArgs.mk [some ['a'], some ['b']] Metadata.DEFAULT [])).1.index = some 0 ∧
    (((ArgSpec.new ['A']).take
        ((ArgSpec.new ['A']).take
          (RawArgs.mk [some ['a'], some ['b']] Metadata.DEFAULT [])).2).1).index
      = some 1 ∧
    (0 : Nat) < 1 :=
  ⟨by decide, by decide,
    c3_consumption_monotonicity.2.2.2.2.1 (ArgSpec.new ['A'])
      (RawArgs.mk [some ['a'], some ['b']] Metadata.DEFAULT []) 0 1
      (by decide) (by decide)⟩

end Noargs
